import Mathlib

/-!
Verification of the `sufr` external-sort line deduplicator (`src/main.rs`).

The program reads an input byte stream, splits it into lines with
`read_until(b'\n')` (each line retains its trailing delimiter; the final
line may lack one), accumulates lines into buffers of at most `chunk_size`
lines, sorts each buffer by raw byte order and writes it to a chunk file
(`split_into_chunks` / `write_sorted_chunk`), and finally performs a k-way
heap merge over the chunk files, writing each popped minimum to the output
unless it equals the single most recently written line (`merge_chunks`).

Bytes are modelled as `Nat`, lines as `List Nat`, files and streams as
their byte contents.  All definitions are executable.
-/

namespace Sufr

/-- A byte of the input stream (`u8` in the source, always < 256 there;
only comparisons matter for the algorithm, so `Nat` is a faithful carrier). -/
abbrev Byte := Nat

/-- Rust `type Line = Vec<u8>`: a line read as raw bytes, delimiter included. -/
abbrev Line := List Byte

/-- The line delimiter `b'\n'`. -/
def newline : Byte := 10

/-- Rust `<[u8] as Ord>::cmp`: byte-wise lexicographic comparison where a
strict first part compares as less than the longer sequence. -/
def lineCmp : Line → Line → Ordering
  | [], [] => .eq
  | [], _ :: _ => .lt
  | _ :: _, [] => .gt
  | a :: as, b :: bs => if a < b then .lt else if b < a then .gt else lineCmp as bs

/-- Strict byte-lexicographic order on lines, as decided by `lineCmp`. -/
def lineLt (a b : Line) : Prop := lineCmp a b = .lt

/-- Non-strict byte-lexicographic order on lines, as decided by `lineCmp`. -/
def lineLe (a b : Line) : Prop := lineCmp a b ≠ .gt

instance : DecidableRel lineLt := fun a b => inferInstanceAs (Decidable (lineCmp a b = .lt))

instance : DecidableRel lineLe := fun a b => inferInstanceAs (Decidable (lineCmp a b ≠ .gt))

theorem lineCmp_self (a : Line) : lineCmp a a = .eq := by
  induction a with
  | nil => rfl
  | cons x xs ih => simp [lineCmp, ih]

theorem lineCmp_eq_iff : ∀ {a b : Line}, lineCmp a b = .eq ↔ a = b
  | [], [] => by simp [lineCmp]
  | [], _ :: _ => by simp [lineCmp]
  | _ :: _, [] => by simp [lineCmp]
  | x :: xs, y :: ys => by
    by_cases hxy : x < y
    · simp only [lineCmp, if_pos hxy]
      constructor
      · intro h; exact absurd h (by simp)
      · intro h; exact absurd (List.head_eq_of_cons_eq h) (Nat.ne_of_lt hxy)
    · by_cases hyx : y < x
      · simp only [lineCmp, if_neg hxy, if_pos hyx]
        constructor
        · intro h; exact absurd h (by simp)
        · intro h; exact absurd (List.head_eq_of_cons_eq h).symm (Nat.ne_of_lt hyx)
      · have hx : x = y := Nat.le_antisymm (Nat.le_of_not_lt hyx) (Nat.le_of_not_lt hxy)
        simp [lineCmp, hxy, hyx, hx, lineCmp_eq_iff (a := xs) (b := ys)]

theorem lineCmp_swap : ∀ (a b : Line), (lineCmp a b).swap = lineCmp b a
  | [], [] => rfl
  | [], _ :: _ => rfl
  | _ :: _, [] => rfl
  | x :: xs, y :: ys => by
    by_cases hxy : x < y
    · have : ¬ y < x := Nat.lt_asymm hxy
      simp [lineCmp, hxy, this, Ordering.swap]
    · by_cases hyx : y < x
      · simp [lineCmp, hxy, hyx, Ordering.swap]
      · simp [lineCmp, hxy, hyx, lineCmp_swap xs ys]

theorem lineCmp_gt_iff {a b : Line} : lineCmp a b = .gt ↔ lineCmp b a = .lt := by
  rw [← lineCmp_swap b a]
  cases lineCmp b a <;> simp [Ordering.swap]

theorem lineLt_trans : ∀ {a b c : Line}, lineLt a b → lineLt b c → lineLt a c
  | [], [], _, h₁, _ => by simp [lineLt, lineCmp] at h₁
  | [], _ :: _, [], _, h₂ => by simp [lineLt, lineCmp] at h₂
  | [], _ :: _, _ :: _, _, _ => rfl
  | _ :: _, [], _, h₁, _ => by simp [lineLt, lineCmp] at h₁
  | _ :: _, _ :: _, [], _, h₂ => by simp [lineLt, lineCmp] at h₂
  | x :: xs, y :: ys, z :: zs, h₁, h₂ => by
    unfold lineLt lineCmp at h₁ h₂ ⊢
    by_cases hxy : x < y <;> by_cases hyz : y < z
    · simp [Nat.lt_trans hxy hyz]
    · by_cases hzy : z < y
      · simp [hyz, hzy] at h₂
      · have hy : y = z := Nat.le_antisymm (Nat.le_of_not_lt hzy) (Nat.le_of_not_lt hyz)
        subst hy
        simp [hxy]
    · by_cases hyx : y < x
      · simp [hxy, hyx] at h₁
      · have hx : x = y := Nat.le_antisymm (Nat.le_of_not_lt hyx) (Nat.le_of_not_lt hxy)
        subst hx
        simp [hyz]
    · by_cases hyx : y < x
      · simp [hxy, hyx] at h₁
      · by_cases hzy : z < y
        · simp [hyz, hzy] at h₂
        · have hx : x = y := Nat.le_antisymm (Nat.le_of_not_lt hyx) (Nat.le_of_not_lt hxy)
          subst hx
          have hy : x = z := Nat.le_antisymm (Nat.le_of_not_lt hzy) (Nat.le_of_not_lt hyz)
          subst hy
          simp [lt_irrefl] at h₁ h₂ ⊢
          exact lineLt_trans (a := xs) (b := ys) (c := zs) h₁ h₂

theorem lineLt_irrefl (a : Line) : ¬ lineLt a a := by
  simp [lineLt, lineCmp_self]

theorem lineLt_ne {a b : Line} (h : lineLt a b) : a ≠ b := by
  intro he; subst he; exact lineLt_irrefl a h

theorem lineLt_asymm {a b : Line} (h : lineLt a b) : ¬ lineLt b a := by
  intro h'
  exact lineLt_irrefl a (lineLt_trans h h')

theorem lineLe_iff {a b : Line} : lineLe a b ↔ lineLt a b ∨ a = b := by
  unfold lineLe lineLt
  constructor
  · intro h
    cases hc : lineCmp a b with
    | lt => exact Or.inl rfl
    | eq => exact Or.inr (lineCmp_eq_iff.mp hc)
    | gt => exact absurd hc h
  · rintro (h | rfl)
    · simp [h]
    · simp [lineCmp_self]

theorem lineLe_refl (a : Line) : lineLe a a := lineLe_iff.mpr (Or.inr rfl)

theorem lineLe_of_lineLt {a b : Line} (h : lineLt a b) : lineLe a b :=
  lineLe_iff.mpr (Or.inl h)

theorem lineLe_trans {a b c : Line} (h₁ : lineLe a b) (h₂ : lineLe b c) : lineLe a c := by
  rcases lineLe_iff.mp h₁ with h₁ | rfl
  · rcases lineLe_iff.mp h₂ with h₂ | rfl
    · exact lineLe_of_lineLt (lineLt_trans h₁ h₂)
    · exact lineLe_of_lineLt h₁
  · exact h₂

theorem lineLt_of_lineLe_of_lineLt {a b c : Line} (h₁ : lineLe a b) (h₂ : lineLt b c) :
    lineLt a c := by
  rcases lineLe_iff.mp h₁ with h₁ | rfl
  · exact lineLt_trans h₁ h₂
  · exact h₂

theorem lineLt_of_lineLt_of_lineLe {a b c : Line} (h₁ : lineLt a b) (h₂ : lineLe b c) :
    lineLt a c := by
  rcases lineLe_iff.mp h₂ with h₂ | rfl
  · exact lineLt_trans h₁ h₂
  · exact h₁

theorem lineLe_of_not_lineLt {a b : Line} (h : ¬ lineLt a b) : lineLe b a :=
  fun hc => h (lineCmp_gt_iff.mp hc)

theorem lineLe_total (a b : Line) : lineLe a b ∨ lineLe b a := by
  by_cases h : lineCmp a b = .gt
  · exact Or.inr (lineLe_of_lineLt (lineCmp_gt_iff.mp h))
  · exact Or.inl h

theorem lineLe_antisymm {a b : Line} (h₁ : lineLe a b) (h₂ : lineLe b a) : a = b := by
  rcases lineLe_iff.mp h₁ with h₁ | rfl
  · rcases lineLe_iff.mp h₂ with h₂ | rfl
    · exact absurd h₂ (lineLt_asymm h₁)
    · rfl
  · rfl

instance : IsTrans Line lineLe := ⟨fun _ _ _ => lineLe_trans⟩

instance : IsTotal Line lineLe := ⟨lineLe_total⟩

instance : IsAntisymm Line lineLe := ⟨fun _ _ => lineLe_antisymm⟩

instance : IsTrans Line lineLt := ⟨fun _ _ _ => lineLt_trans⟩

instance : IsIrrefl Line lineLt := ⟨lineLt_irrefl⟩

instance : IsAntisymm Line lineLt := ⟨fun _ _ h h' => absurd h' (lineLt_asymm h)⟩

theorem lineLt_iff_le_ne {a b : Line} : lineLt a b ↔ lineLe a b ∧ a ≠ b := by
  constructor
  · intro h
    exact ⟨lineLe_of_lineLt h, lineLt_ne h⟩
  · rintro ⟨h₁, h₂⟩
    rcases lineLe_iff.mp h₁ with h | rfl
    · exact h
    · exact absurd rfl h₂

/-- A line is strictly below any proper extension of itself (strict
byte-prefix order embeds into `lineLt`). -/
theorem lineLt_append {a : Line} {s : Line} (hs : s ≠ []) : lineLt a (a ++ s) := by
  induction a with
  | nil =>
    cases s with
    | nil => exact absurd rfl hs
    | cons x xs => rfl
  | cons x xs ih =>
    unfold lineLt lineCmp
    simpa [lt_irrefl] using ih

/-! ## Reading a byte stream as lines

`split_into_chunks` and `merge_chunks` both read their input with
`reader.read_until(b'\n', &mut line)`: each read returns the bytes up to and
including the next `\n`, or the remaining bytes at end of input (possibly
with no trailing delimiter); a return of 0 bytes ends the loop.
`splitLines` is the resulting decomposition of a byte stream into lines. -/

/-- Helper for `splitLines`: `acc` is the partial line read so far. -/
def splitLinesAux : List Byte → Line → List Line
  | [], acc => if acc = [] then [] else [acc]
  | b :: bs, acc =>
    if b = newline then (acc ++ [newline]) :: splitLinesAux bs []
    else splitLinesAux bs (acc ++ [b])

/-- The sequence of lines obtained by repeatedly calling
`read_until(b'\n')` on the byte stream `input`. -/
def splitLines (input : List Byte) : List Line := splitLinesAux input []

/-- A line as produced by `read_until` from a newline-terminated stream:
nonempty, ends with the delimiter, and contains the delimiter nowhere else. -/
def GoodLine (l : Line) : Prop := ∃ m, l = m ++ [newline] ∧ newline ∉ m

theorem splitLinesAux_append_newline {m : List Byte} (hm : newline ∉ m) :
    ∀ (rest : List Byte) (acc : Line),
      splitLinesAux (m ++ newline :: rest) acc = (acc ++ m ++ [newline]) :: splitLinesAux rest [] := by
  induction m with
  | nil => intro rest acc; simp [splitLinesAux]
  | cons b bt ih =>
    intro rest acc
    have hb : b ≠ newline := fun h => hm (h ▸ List.mem_cons_self b bt)
    have hbt : newline ∉ bt := fun h => hm (List.mem_cons_of_mem b h)
    have hstep : splitLinesAux ((b :: bt) ++ newline :: rest) acc
        = splitLinesAux (bt ++ newline :: rest) (acc ++ [b]) := by
      simp [splitLinesAux, hb]
    rw [hstep, ih hbt rest (acc ++ [b])]
    simp

/-- Re-splitting the concatenation of well-delimited lines recovers exactly
those lines. -/
theorem splitLines_flatten {L : List Line} (h : ∀ l ∈ L, GoodLine l) :
    splitLines L.flatten = L := by
  induction L with
  | nil => rfl
  | cons l rest ih =>
    obtain ⟨m, hm, hmem⟩ := h l (List.mem_cons_self l rest)
    have hrest : ∀ l' ∈ rest, GoodLine l' := fun l' hl' => h l' (List.mem_cons_of_mem l hl')
    subst hm
    have hflat : ((m ++ [newline]) :: rest).flatten = m ++ newline :: rest.flatten := by
      simp
    unfold splitLines
    rw [hflat, splitLinesAux_append_newline hmem]
    have ih' := ih hrest
    unfold splitLines at ih'
    rw [ih']
    simp

theorem splitLinesAux_good {input : List Byte} (hin : input.getLast? = some newline) :
    ∀ (acc : Line), newline ∉ acc → ∀ l ∈ splitLinesAux input acc, GoodLine l := by
  induction input with
  | nil => simp at hin
  | cons b bs ih =>
    intro acc hacc l hl
    cases bs with
    | nil =>
      have hb : b = newline := by simpa using hin
      subst hb
      simp [splitLinesAux] at hl
      subst hl
      exact ⟨acc, rfl, hacc⟩
    | cons c cs =>
      have htail : (c :: cs).getLast? = some newline := by
        simpa [List.getLast?] using hin
      by_cases hb : b = newline
      · subst hb
        simp only [splitLinesAux, if_pos rfl] at hl
        rcases List.mem_cons.mp hl with rfl | hl
        · exact ⟨acc, rfl, hacc⟩
        · exact ih htail [] (by simp) l hl
      · simp only [splitLinesAux, if_neg hb] at hl
        have : newline ∉ acc ++ [b] := by
          intro hc
          rcases List.mem_append.mp hc with hc | hc
          · exact hacc hc
          · have hcb : newline = b := by simpa using hc
            exact hb hcb.symm
        exact ih htail (acc ++ [b]) this l hl

/-- Every line of a newline-terminated (or empty) input is well delimited. -/
theorem splitLines_good {input : List Byte}
    (hin : input = [] ∨ input.getLast? = some newline) :
    ∀ l ∈ splitLines input, GoodLine l := by
  rcases hin with rfl | hin
  · intro l hl; simp [splitLines, splitLinesAux] at hl
  · exact splitLinesAux_good hin [] (by simp)

theorem goodLine_ne_nil {l : Line} (h : GoodLine l) : l ≠ [] := by
  obtain ⟨m, rfl, -⟩ := h
  simp

theorem goodLine_getLast? {l : Line} (h : GoodLine l) : l.getLast? = some newline := by
  obtain ⟨m, rfl, -⟩ := h
  simp

/-! ## Phase 1: `split_into_chunks` and `write_sorted_chunk`

`write_sorted_chunk` sorts the buffer with `par_sort_unstable_by(|a, b| a.cmp(b))`
(byte-lexicographic order; equal lines are byte-identical, so the sorted
sequence is unique and any correct sort models it) and writes the lines
consecutively to a fresh chunk file.  `split_into_chunks` pushes each line
into a buffer and spills the buffer whenever `buffer.len() >= chunk_size`,
plus a final spill of a non-empty buffer at end of input.  A chunk file is
modelled by its byte contents. -/

/-- The sorted order of a chunk buffer (`buffer.par_sort_unstable_by(|a, b| a.cmp(b))`). -/
def sortLines (buffer : List Line) : List Line := List.insertionSort lineLe buffer

/-- The byte contents of the chunk file produced by `write_sorted_chunk`:
the buffer's lines, sorted, written back to back (`file.write_all(&line)`). -/
def write_sorted_chunk (buffer : List Line) : List Byte := (sortLines buffer).flatten

/-- Loop of `split_into_chunks`: consume the remaining input lines one by
one, accumulating into `buffer`, spilling whenever the buffer reaches
`chunkSize` lines, with a final spill of a non-empty buffer. Returns the
chunk files' contents in creation order. -/
def splitIntoChunksAux (chunkSize : Nat) : List Line → List Line → List (List Byte)
  | [], buffer => if buffer = [] then [] else [write_sorted_chunk buffer]
  | l :: rest, buffer =>
    if chunkSize ≤ (buffer ++ [l]).length then
      write_sorted_chunk (buffer ++ [l]) :: splitIntoChunksAux chunkSize rest []
    else
      splitIntoChunksAux chunkSize rest (buffer ++ [l])

/-- Rust `split_into_chunks`: read the input as lines, spill sorted chunks
of at most `chunkSize` lines, and return the chunk files (by contents). -/
def split_into_chunks (chunkSize : Nat) (input : List Byte) : List (List Byte) :=
  splitIntoChunksAux chunkSize (splitLines input) []

/-- Specification-level contiguous grouping of a line sequence into groups
completed at every `chunkSize`-th line, the final (possibly shorter) group
emitted at end of input. -/
def chunkGroups (chunkSize : Nat) : List Line → List (List Line)
  | [] => []
  | l :: rest =>
    (l :: rest.take (chunkSize - 1)) :: chunkGroups chunkSize (rest.drop (chunkSize - 1))
termination_by ls => ls.length
decreasing_by
  simp only [List.length_cons, List.length_drop]
  omega

theorem chunkGroups_nil (chunkSize : Nat) : chunkGroups chunkSize [] = [] := by
  rw [chunkGroups]

theorem chunkGroups_cons (chunkSize : Nat) (l : Line) (rest : List Line) :
    chunkGroups chunkSize (l :: rest)
      = (l :: rest.take (chunkSize - 1)) :: chunkGroups chunkSize (rest.drop (chunkSize - 1)) := by
  rw [chunkGroups]

theorem chunkGroups_flatten (chunkSize : Nat) :
    ∀ ls : List Line, (chunkGroups chunkSize ls).flatten = ls
  | [] => by simp [chunkGroups]
  | l :: rest => by
    rw [chunkGroups_cons]
    simp only [List.flatten_cons, chunkGroups_flatten chunkSize (rest.drop (chunkSize - 1))]
    simp [List.take_append_drop]
termination_by ls => ls.length
decreasing_by
  simp only [List.length_cons, List.length_drop]
  omega

theorem chunkGroups_ne_nil (chunkSize : Nat) (ls : List Line) :
    ∀ g ∈ chunkGroups chunkSize ls, g ≠ [] := by
  induction ls using chunkGroups.induct chunkSize with
  | case1 => simp [chunkGroups_nil]
  | case2 l rest ih =>
    rw [chunkGroups_cons]
    intro g hg
    rcases List.mem_cons.mp hg with rfl | hg
    · simp
    · exact ih g hg

/-- The chunking loop groups the input lines contiguously: with a buffer of
`buffer` lines already accumulated (strictly below capacity), the spilled
chunks are exactly the sorted `chunkSize`-groups of `buffer ++ ls`. -/
theorem splitIntoChunksAux_eq (chunkSize : Nat) (hcap : 1 ≤ chunkSize) :
    ∀ (ls buffer : List Line), buffer.length < chunkSize →
      splitIntoChunksAux chunkSize ls buffer
        = (chunkGroups chunkSize (buffer ++ ls)).map write_sorted_chunk := by
  intro ls
  induction ls with
  | nil =>
    intro buffer hlt
    cases buffer with
    | nil => simp [splitIntoChunksAux, chunkGroups_nil]
    | cons b bt =>
      have hlt' : bt.length ≤ chunkSize - 1 := by
        simp at hlt
        omega
      have h₁ : bt.take (chunkSize - 1) = bt := List.take_of_length_le hlt'
      have h₂ : bt.drop (chunkSize - 1) = [] := List.drop_eq_nil_of_le hlt'
      rw [List.append_nil, chunkGroups_cons, h₁, h₂, chunkGroups_nil]
      simp [splitIntoChunksAux]
  | cons x xs ih =>
    intro buffer hlt
    by_cases hfull : chunkSize ≤ (buffer ++ [x]).length
    · have hlen : buffer.length + 1 = chunkSize := by
        have hf := hfull
        simp at hf
        omega
      rw [splitIntoChunksAux, if_pos hfull, ih [] (by simpa using hcap)]
      have hsplit : buffer ++ x :: xs = (buffer ++ [x]) ++ xs := by simp
      rw [hsplit]
      cases hbx : buffer ++ [x] with
      | nil => simp at hbx
      | cons c ct =>
        have hct : ct.length = chunkSize - 1 := by
          have hc := congrArg List.length hbx
          simp at hc
          omega
        simp only [List.cons_append]
        rw [chunkGroups_cons]
        have htake : (ct ++ xs).take (chunkSize - 1) = ct := by
          rw [List.take_append_eq_append_take, List.take_of_length_le (by omega),
            hct, Nat.sub_self, List.take_zero, List.append_nil]
        have hdrop : (ct ++ xs).drop (chunkSize - 1) = xs := by
          rw [List.drop_append_eq_append_drop, List.drop_eq_nil_of_le (by omega),
            hct, Nat.sub_self, List.drop_zero, List.nil_append]
        simp [htake, hdrop]
    · rw [splitIntoChunksAux, if_neg hfull, ih (buffer ++ [x]) (by simpa using hfull)]
      simp

/-- `split_into_chunks` spills the sorted contiguous `chunkSize`-groups of
the input's lines, in order. -/
theorem split_into_chunks_eq (chunkSize : Nat) (hcap : 1 ≤ chunkSize) (input : List Byte) :
    split_into_chunks chunkSize input
      = (chunkGroups chunkSize (splitLines input)).map write_sorted_chunk := by
  rw [split_into_chunks, splitIntoChunksAux_eq chunkSize hcap (splitLines input) [] (by simpa)]
  simp

/-! ## Phase 2: `merge_chunks`

`merge_chunks` opens every chunk file, primes a `BinaryHeap<HeapItem>` with
the first line of each non-empty reader, and loops: pop the heap, write the
popped line unless it equals the single most recently written line, then
read the next line from the popped item's reader and push it if one exists.
`HeapItem`'s `Ord` reverses the line comparison (`other.line.cmp(&self.line)`),
so the max-heap pops an item with the minimal line; ties between equal lines
are broken arbitrarily by the heap, modelled here by popping the first
minimal item.  The heap is modelled as the list of its items. -/

/-- Rust `struct HeapItem { line: Line, index: usize }`: one frontier entry,
the buffered current line of reader number `index`. -/
structure HeapItem where
  line : Line
  index : Nat
deriving DecidableEq

/-- Select the item with the minimal line from `best :: l` (first minimal
item wins), returning it together with the remaining items. -/
def heapPopAux : HeapItem → List HeapItem → HeapItem × List HeapItem
  | best, [] => (best, [])
  | best, x :: xs =>
    if lineLt x.line best.line then
      ((heapPopAux x xs).1, best :: (heapPopAux x xs).2)
    else
      ((heapPopAux best xs).1, x :: (heapPopAux best xs).2)

/-- `BinaryHeap::pop` under `HeapItem`'s reversed ordering: remove and
return an item whose line is minimal, or `none` if the heap is empty. -/
def heapPop : List HeapItem → Option (HeapItem × List HeapItem)
  | [] => none
  | x :: xs => some (heapPopAux x xs)

/-- The merge loop's state: per-reader remaining (unread) lines, the heap's
items, the most recently written line, and the output lines written so far. -/
structure MergeState where
  readers : List (List Line)
  heap : List HeapItem
  lastWritten : Option Line
  out : List Line
deriving DecidableEq

/-- One iteration of the `while let Some(HeapItem { line, index }) = heap.pop()`
loop: `none` when the heap is empty (the loop's sole exit); otherwise pop a
minimal item, write its line unless it equals `last_written`, and push the
next line of reader `index` if that reader is not exhausted. -/
def mergeStep (s : MergeState) : Option MergeState :=
  match heapPop s.heap with
  | none => none
  | some (item, rest) =>
    match s.readers.getD item.index [] with
    | [] =>
      some ⟨s.readers, rest,
        if s.lastWritten = some item.line then s.lastWritten else some item.line,
        if s.lastWritten = some item.line then s.out else s.out ++ [item.line]⟩
    | l :: ls =>
      some ⟨s.readers.set item.index ls, rest ++ [⟨l, item.index⟩],
        if s.lastWritten = some item.line then s.lastWritten else some item.line,
        if s.lastWritten = some item.line then s.out else s.out ++ [item.line]⟩

/-- Run `n` iterations of the merge loop (stopping early once the heap is
empty, after which the state no longer changes). -/
def mergeIter : Nat → MergeState → MergeState
  | 0, s => s
  | n + 1, s =>
    match mergeStep s with
    | none => s
    | some s' => mergeIter n s'

/-- Total number of lines still held by the state (heap entries plus unread
reader lines); each loop iteration consumes exactly one. -/
def mergeMeasure (s : MergeState) : Nat := s.heap.length + s.readers.flatten.length

/-- The priming loop of `merge_chunks`: for each reader `i` (in order), read
its first line and push `HeapItem { line, index: i }` if the reader is
non-empty.  `i` is the index of the first source in `sources`. -/
def initHeapAux : Nat → List (List Line) → List HeapItem
  | _, [] => []
  | i, [] :: rest => initHeapAux (i + 1) rest
  | i, (l :: _) :: rest => ⟨l, i⟩ :: initHeapAux (i + 1) rest

/-- The merge state right after priming: every reader has surrendered its
first line to the heap. -/
def initMergeState (sources : List (List Line)) : MergeState :=
  ⟨sources.map List.tail, initHeapAux 0 sources, none, []⟩

/-- The lines written by the merge loop when run on the given per-reader
line sequences (the loop runs until the heap is empty; `mergeMeasure`
iterations always suffice, see `mergeIter_heap_nil`). -/
def mergeSources (sources : List (List Line)) : List Line :=
  (mergeIter (mergeMeasure (initMergeState sources)) (initMergeState sources)).out

/-- Rust `merge_chunks`: merge the chunk files (given by their byte
contents, re-read line by line with `read_until(b'\n')`) into the final
deduplicated output, returned as the sequence of written lines. -/
def merge_chunks (chunkFiles : List (List Byte)) : List Line :=
  mergeSources (chunkFiles.map splitLines)

/-- The full pipeline of `main`: phase 1 then phase 2, output as lines. -/
def outputLines (chunkSize : Nat) (input : List Byte) : List Line :=
  merge_chunks (split_into_chunks chunkSize input)

/-- The byte contents of the output file produced by `main`. -/
def mainOutput (chunkSize : Nat) (input : List Byte) : List Byte :=
  (outputLines chunkSize input).flatten

/-! ### Heap lemmas -/

theorem heapPopAux_perm : ∀ (best : HeapItem) (l : List HeapItem),
    ((heapPopAux best l).1 :: (heapPopAux best l).2).Perm (best :: l)
  | _, [] => List.Perm.refl _
  | best, x :: xs => by
    by_cases hlt : lineLt x.line best.line
    · simp only [heapPopAux, if_pos hlt]
      exact (List.Perm.swap best _ _).trans (List.Perm.cons best (heapPopAux_perm x xs))
    · simp only [heapPopAux, if_neg hlt]
      exact ((List.Perm.swap x _ _).trans
        (List.Perm.cons x (heapPopAux_perm best xs))).trans (List.Perm.swap best x xs)

theorem heapPopAux_min : ∀ (best : HeapItem) (l : List HeapItem),
    ∀ x ∈ best :: l, lineLe (heapPopAux best l).1.line x.line := by
  intro best l
  induction l generalizing best with
  | nil =>
    intro x hx
    rcases List.mem_cons.mp hx with rfl | hx
    · exact lineLe_refl _
    · simp at hx
  | cons y ys ih =>
    intro x hx
    by_cases hlt : lineLt y.line best.line
    · simp only [heapPopAux, if_pos hlt]
      rcases List.mem_cons.mp hx with h | h
      · rw [h]
        exact lineLe_trans (ih y y (List.mem_cons_self y ys)) (lineLe_of_lineLt hlt)
      · exact ih y x h
    · simp only [heapPopAux, if_neg hlt]
      rcases List.mem_cons.mp hx with h | h
      · rw [h]
        exact ih best best (List.mem_cons_self best ys)
      · rcases List.mem_cons.mp h with h₂ | h₂
        · rw [h₂]
          exact lineLe_trans (ih best best (List.mem_cons_self best ys))
            (lineLe_of_not_lineLt hlt)
        · exact ih best x (List.mem_cons_of_mem best h₂)

theorem heapPop_eq_none_iff {h : List HeapItem} : heapPop h = none ↔ h = [] := by
  cases h <;> simp [heapPop]

theorem heapPop_perm {h : List HeapItem} {item : HeapItem} {rest : List HeapItem}
    (hp : heapPop h = some (item, rest)) : (item :: rest).Perm h := by
  cases h with
  | nil => simp [heapPop] at hp
  | cons x xs =>
    simp only [heapPop, Option.some_inj] at hp
    have := heapPopAux_perm x xs
    rw [show item = (heapPopAux x xs).1 from by rw [hp], show rest = (heapPopAux x xs).2 from by rw [hp]]
    exact this

theorem heapPop_min {h : List HeapItem} {item : HeapItem} {rest : List HeapItem}
    (hp : heapPop h = some (item, rest)) : ∀ x ∈ h, lineLe item.line x.line := by
  cases h with
  | nil => simp [heapPop] at hp
  | cons x xs =>
    simp only [heapPop, Option.some_inj] at hp
    intro y hy
    rw [show item = (heapPopAux x xs).1 from by rw [hp]]
    exact heapPopAux_min x xs y hy

/-! ### Reader bookkeeping lemmas -/

theorem getD_nil (i : Nat) : ([] : List (List Line)).getD i [] = [] := by
  simp [List.getD]

theorem getD_map_tail (sources : List (List Line)) (i : Nat) :
    (sources.map List.tail).getD i [] = (sources.getD i []).tail := by
  rw [List.getD_eq_getElem?_getD, List.getD_eq_getElem?_getD, List.getElem?_map]
  cases sources[i]? <;> simp

theorem getD_set_self {rs : List (List Line)} {i : Nat} {ls : List Line} (h : i < rs.length) :
    (rs.set i ls).getD i [] = ls := by
  rw [List.getD_eq_getElem?_getD, List.getElem?_set_self h]
  rfl

theorem getD_set_ne {rs : List (List Line)} {i j : Nat} {ls : List Line} (h : i ≠ j) :
    (rs.set i ls).getD j [] = rs.getD j [] := by
  rw [List.getD_eq_getElem?_getD, List.getD_eq_getElem?_getD, List.getElem?_set_ne h]

theorem lt_length_of_getD_ne_nil {rs : List (List Line)} {i : Nat} (h : rs.getD i [] ≠ []) :
    i < rs.length := by
  by_contra hge
  rw [List.getD_eq_getElem?_getD, List.getElem?_eq_none (le_of_not_lt hge)] at h
  exact h rfl

theorem getD_mem_of_ne_nil {rs : List (List Line)} {i : Nat} (h : rs.getD i [] ≠ []) :
    rs.getD i [] ∈ rs := by
  have hi := lt_length_of_getD_ne_nil h
  rw [List.getD_eq_getElem rs [] hi]
  exact List.getElem_mem hi

theorem exists_getD_of_mem {rs : List (List Line)} {r : List Line} (h : r ∈ rs) :
    ∃ i, rs.getD i [] = r := by
  obtain ⟨n, hn, he⟩ := List.mem_iff_getElem.mp h
  exact ⟨n, by rw [List.getD_eq_getElem rs [] hn, he]⟩

/-- Removing the head of reader `i` moves exactly one line (that head) out
of the readers' joint contents. -/
theorem flatten_set_perm : ∀ (rs : List (List Line)) (i : Nat) {l : Line} {ls : List Line},
    rs.getD i [] = l :: ls → rs.flatten.Perm (l :: (rs.set i ls).flatten)
  | [], i, l, ls, h => by simp [List.getD] at h
  | r :: rt, 0, l, ls, h => by
    have hr : r = l :: ls := h
    subst hr
    simp
  | r :: rt, i + 1, l, ls, h => by
    have h' : rt.getD i [] = l :: ls := h
    have ih := flatten_set_perm rt i h'
    simp only [List.set, List.flatten_cons]
    exact (ih.append_left r).trans List.perm_middle

/-! ### Merge step and loop lemmas -/

/-- Inversion of a successful merge iteration: it pops some `(item, rest)`,
updates `last_written`/output by the duplicate test against the single most
recently written line, and re-arms reader `item.index` iff it has a next line. -/
theorem mergeStep_some {s s' : MergeState} (h : mergeStep s = some s') :
    ∃ item rest, heapPop s.heap = some (item, rest) ∧
      s'.lastWritten = (if s.lastWritten = some item.line then s.lastWritten else some item.line) ∧
      s'.out = (if s.lastWritten = some item.line then s.out else s.out ++ [item.line]) ∧
      ((s.readers.getD item.index [] = [] ∧ s'.readers = s.readers ∧ s'.heap = rest) ∨
       (∃ l ls, s.readers.getD item.index [] = l :: ls ∧
         s'.readers = s.readers.set item.index ls ∧
         s'.heap = rest ++ [⟨l, item.index⟩])) := by
  cases hp : heapPop s.heap with
  | none =>
    unfold mergeStep at h
    rw [hp] at h
    exact absurd h (by simp)
  | some pr =>
    obtain ⟨item, rest⟩ := pr
    refine ⟨item, rest, rfl, ?_⟩
    unfold mergeStep at h
    rw [hp] at h
    simp only at h
    cases hr : s.readers.getD item.index [] with
    | nil =>
      rw [hr] at h
      have hs' := (Option.some.inj h).symm
      subst hs'
      exact ⟨rfl, rfl, Or.inl ⟨rfl, rfl, rfl⟩⟩
    | cons l ls =>
      rw [hr] at h
      have hs' := (Option.some.inj h).symm
      subst hs'
      exact ⟨rfl, rfl, Or.inr ⟨l, ls, rfl, rfl, rfl⟩⟩

/-- The merge loop exits exactly when the heap is empty. -/
theorem mergeStep_none_iff {s : MergeState} : mergeStep s = none ↔ s.heap = [] := by
  constructor
  · intro h
    by_contra hne
    obtain ⟨x, xs, hh⟩ : ∃ x xs, s.heap = x :: xs := by
      cases hh : s.heap with
      | nil => exact absurd hh hne
      | cons a l => exact ⟨a, l, rfl⟩
    unfold mergeStep at h
    rw [hh] at h
    simp only [heapPop] at h
    split at h <;> simp at h
  · intro h
    unfold mergeStep
    rw [h]
    rfl

/-- Each iteration of the merge loop consumes exactly one remaining line. -/
theorem mergeStep_measure {s s' : MergeState} (h : mergeStep s = some s') :
    mergeMeasure s' + 1 = mergeMeasure s := by
  obtain ⟨item, rest, hp, hlw, hout, hcase⟩ := mergeStep_some h
  have hlen : s.heap.length = rest.length + 1 := by
    have hpl := (heapPop_perm hp).length_eq
    simpa using hpl.symm
  rcases hcase with ⟨hr, hrd, hhp⟩ | ⟨l, ls, hr, hrd, hhp⟩
  · unfold mergeMeasure
    rw [hrd, hhp]
    omega
  · unfold mergeMeasure
    rw [hrd, hhp]
    have hperm := (flatten_set_perm s.readers item.index hr).length_eq
    simp at hperm ⊢
    omega

theorem mergeIter_of_heap_nil {s : MergeState} (h : s.heap = []) :
    ∀ n, mergeIter n s = s
  | 0 => rfl
  | n + 1 => by
    have hn : mergeStep s = none := mergeStep_none_iff.mpr h
    simp [mergeIter, hn]

/-- `mergeMeasure s` iterations always drain the heap: the merge loop
terminates, with the empty heap as its (only) exit condition. -/
theorem mergeIter_heap_nil : ∀ (n : Nat) (s : MergeState),
    mergeMeasure s ≤ n → (mergeIter n s).heap = [] := by
  intro n
  induction n with
  | zero =>
    intro s hm
    have h0 : s.heap.length = 0 := by
      unfold mergeMeasure at hm
      omega
    simpa [mergeIter] using List.length_eq_zero.mp h0
  | succ n ih =>
    intro s hm
    cases hstep : mergeStep s with
    | none =>
      have h0 : s.heap = [] := mergeStep_none_iff.mp hstep
      simp [mergeIter, hstep, h0]
    | some s' =>
      have hms := mergeStep_measure hstep
      simp only [mergeIter, hstep]
      exact ih s' (by omega)

/-- Unrolling the merge loop from the far end: the state after `n + 1`
iterations is one step beyond the state after `n` iterations. -/
theorem mergeIter_succ_eq : ∀ (n : Nat) (s : MergeState),
    mergeIter (n + 1) s
      = (match mergeStep (mergeIter n s) with
         | none => mergeIter n s
         | some s' => s') := by
  intro n
  induction n with
  | zero =>
    intro s
    cases hstep : mergeStep s <;> simp [mergeIter, hstep]
  | succ n ih =>
    intro s
    cases hstep : mergeStep s with
    | none =>
      have h0 : s.heap = [] := mergeStep_none_iff.mp hstep
      rw [mergeIter_of_heap_nil h0 (n + 1 + 1), mergeIter_of_heap_nil h0 (n + 1), hstep]
    | some t =>
      have h1 : mergeIter (n + 1 + 1) s = mergeIter (n + 1) t := by
        simp [mergeIter, hstep]
      have h2 : mergeIter (n + 1) s = mergeIter n t := by
        simp [mergeIter, hstep]
      rw [h1, h2]
      exact ih t

/-! ### The merge loop invariant -/

/-- The lines still to be consumed by the merge: buffered heap lines plus
unread reader lines. -/
def remainingLines (s : MergeState) : List Line :=
  s.heap.map HeapItem.line ++ s.readers.flatten

/-- Invariant of the merge loop, relative to the list `T` of all source
lines: every reader is sorted, every heap item bounds its own reader's
remaining lines, heap indices are pairwise distinct, every non-exhausted
reader has a live heap entry, the output is strictly sorted and ends in
`last_written`, the last written line bounds every remaining line, and the
output plus the remaining lines cover exactly the source lines. -/
structure MergeInv (T : List Line) (s : MergeState) : Prop where
  readers_sorted : ∀ r ∈ s.readers, List.Sorted lineLe r
  item_le : ∀ it ∈ s.heap, ∀ l ∈ s.readers.getD it.index [], lineLe it.line l
  idx_nodup : (s.heap.map HeapItem.index).Nodup
  covered : ∀ i : Nat, s.readers.getD i [] ≠ [] → ∃ it ∈ s.heap, it.index = i
  out_sorted : List.Sorted lineLt s.out
  last_eq : s.lastWritten = s.out.getLast?
  last_le : ∀ w, s.lastWritten = some w → ∀ l ∈ remainingLines s, lineLe w l
  mem_iff : ∀ l, (l ∈ s.out ∨ l ∈ remainingLines s) ↔ l ∈ T

/-- The popped minimum is below every line the merge has yet to consume
(heap minimality for buffered lines; `covered` and `item_le` extend this to
unread reader lines). -/
theorem popped_min {T : List Line} {s : MergeState} (inv : MergeInv T s)
    {item : HeapItem} {rest : List HeapItem} (hp : heapPop s.heap = some (item, rest)) :
    ∀ l ∈ remainingLines s, lineLe item.line l := by
  intro l hl
  rcases List.mem_append.mp hl with hl | hl
  · obtain ⟨it, hit, he⟩ := List.mem_map.mp hl
    rw [← he]
    exact heapPop_min hp it hit
  · obtain ⟨r, hr, hlr⟩ := List.mem_flatten.mp hl
    obtain ⟨i, hi⟩ := exists_getD_of_mem hr
    have hrne : s.readers.getD i [] ≠ [] := by
      rw [hi]
      intro hnil
      rw [hnil] at hlr
      simp at hlr
    obtain ⟨it, hit, hidx⟩ := inv.covered i hrne
    exact lineLe_trans (heapPop_min hp it hit)
      (inv.item_le it hit l (by rw [hidx, hi]; exact hlr))

theorem sorted_lt_mem_getLast? {out : List Line} {w y : Line}
    (hs : List.Sorted lineLt out) (hw : out.getLast? = some w) (hy : y ∈ out) :
    y = w ∨ lineLt y w := by
  obtain ⟨ys, hys⟩ := List.getLast?_eq_some_iff.mp hw
  subst hys
  rcases List.mem_append.mp hy with hy | hy
  · exact Or.inr ((List.pairwise_append.mp hs).2.2 y hy w (List.mem_singleton_self w))
  · exact Or.inl (by simpa using hy)

/-- Preservation: one merge iteration keeps the invariant. -/
theorem MergeInv.step {T : List Line} {s s' : MergeState}
    (inv : MergeInv T s) (h : mergeStep s = some s') : MergeInv T s' := by
  obtain ⟨item, rest, hp, hlw, hout, hcase⟩ := mergeStep_some h
  have hheap_perm : (item :: rest).Perm s.heap := heapPop_perm hp
  have hitem_mem : item ∈ s.heap := hheap_perm.mem_iff.mp (List.mem_cons_self _ _)
  have hmin := popped_min inv hp
  have hline_mem : item.line ∈ remainingLines s :=
    List.mem_append_left _ (List.mem_map.mpr ⟨item, hitem_mem, rfl⟩)
  have hnodup_cons : ((item :: rest).map HeapItem.index).Nodup :=
    ((hheap_perm.map HeapItem.index).nodup_iff).mpr inv.idx_nodup
  have hidx_rest : item.index ∉ rest.map HeapItem.index :=
    (List.nodup_cons.mp hnodup_cons).1
  have hrest_nodup : (rest.map HeapItem.index).Nodup :=
    (List.nodup_cons.mp hnodup_cons).2
  have hrest_sub : ∀ it ∈ rest, it ∈ s.heap := fun it hit =>
    hheap_perm.mem_iff.mp (List.mem_cons_of_mem _ hit)
  -- the one-step permutation of the remaining lines
  have hrem : (remainingLines s).Perm (item.line :: remainingLines s') := by
    rcases hcase with ⟨hr, hrd, hhp⟩ | ⟨l, ls, hr, hrd, hhp⟩
    · unfold remainingLines
      rw [hrd, hhp]
      exact ((hheap_perm.symm.map HeapItem.line).append_right _)
    · unfold remainingLines
      rw [hrd, hhp]
      have h1 : (s.heap.map HeapItem.line ++ s.readers.flatten).Perm
          ((item.line :: rest.map HeapItem.line) ++ s.readers.flatten) :=
        (hheap_perm.symm.map HeapItem.line).append_right _
      have h2 : ((item.line :: rest.map HeapItem.line) ++ s.readers.flatten).Perm
          ((item.line :: rest.map HeapItem.line) ++ (l :: (s.readers.set item.index ls).flatten)) :=
        (flatten_set_perm s.readers item.index hr).append_left _
      refine (h1.trans h2).trans ?_
      have h3 : (rest.map HeapItem.line) ++ (l :: (s.readers.set item.index ls).flatten)
          = ((rest ++ [({ line := l, index := item.index } : HeapItem)]).map HeapItem.line)
              ++ (s.readers.set item.index ls).flatten := by
        simp
      simp only [List.cons_append]
      rw [h3]
  have hrem_sub : ∀ x ∈ remainingLines s', x ∈ remainingLines s := fun x hx =>
    hrem.mem_iff.mpr (List.mem_cons_of_mem _ hx)
  -- the (l :: ls) source reader is sorted, in the push case
  refine ⟨?_, ?_, ?_, ?_, ?_, ?_, ?_, ?_⟩
  · -- readers_sorted
    rcases hcase with ⟨hr, hrd, hhp⟩ | ⟨l, ls, hr, hrd, hhp⟩
    · rw [hrd]; exact inv.readers_sorted
    · rw [hrd]
      intro r hmem
      rcases List.mem_or_eq_of_mem_set hmem with hmem | heq
      · exact inv.readers_sorted r hmem
      · subst heq
        have hcons : s.readers.getD item.index [] ∈ s.readers :=
          getD_mem_of_ne_nil (by rw [hr]; simp)
        rw [hr] at hcons
        exact (List.sorted_cons.mp (inv.readers_sorted _ hcons)).2
  · -- item_le
    rcases hcase with ⟨hr, hrd, hhp⟩ | ⟨l, ls, hr, hrd, hhp⟩
    · rw [hrd, hhp]
      intro it hit
      exact inv.item_le it (hrest_sub it hit)
    · rw [hrd, hhp]
      intro it hit x hx
      rcases List.mem_append.mp hit with hit | hit
      · have hne : it.index ≠ item.index := by
          intro he
          apply hidx_rest
          rw [← he]
          exact List.mem_map.mpr ⟨it, hit, rfl⟩
        rw [getD_set_ne (fun he => hne he.symm)] at hx
        exact inv.item_le it (hrest_sub it hit) x hx
      · have hix : it = ({ line := l, index := item.index } : HeapItem) := by simpa using hit
        subst hix
        have hlen : item.index < s.readers.length :=
          lt_length_of_getD_ne_nil (by rw [hr]; simp)
        rw [getD_set_self hlen] at hx
        have hcons : (l :: ls) ∈ s.readers := by
          rw [← hr]
          exact getD_mem_of_ne_nil (by rw [hr]; simp)
        exact List.rel_of_sorted_cons (inv.readers_sorted _ hcons) x hx
  · -- idx_nodup
    rcases hcase with ⟨hr, hrd, hhp⟩ | ⟨l, ls, hr, hrd, hhp⟩
    · rw [hhp]; exact hrest_nodup
    · rw [hhp]
      have hperm : ((rest ++ [({ line := l, index := item.index } : HeapItem)]).map
            HeapItem.index).Perm (item.index :: rest.map HeapItem.index) := by
        have hps := (List.perm_append_singleton
          ({ line := l, index := item.index } : HeapItem) rest).map HeapItem.index
        simpa using hps
      exact hperm.nodup_iff.mpr hnodup_cons
  · -- covered
    rcases hcase with ⟨hr, hrd, hhp⟩ | ⟨l, ls, hr, hrd, hhp⟩
    · rw [hrd, hhp]
      intro i hi
      obtain ⟨it, hit, hidx⟩ := inv.covered i hi
      rcases List.mem_cons.mp (hheap_perm.mem_iff.mpr hit) with h1 | h1
      · exfalso
        subst h1
        rw [hidx] at hr
        exact hi hr
      · exact ⟨it, h1, hidx⟩
    · rw [hrd, hhp]
      intro i hi
      by_cases hii : i = item.index
      · subst hii
        exact ⟨({ line := l, index := item.index } : HeapItem),
          List.mem_append_right _ (List.mem_singleton_self _), rfl⟩
      · rw [getD_set_ne (fun he => hii he.symm)] at hi
        obtain ⟨it, hit, hidx⟩ := inv.covered i hi
        rcases List.mem_cons.mp (hheap_perm.mem_iff.mpr hit) with h1 | h1
        · exfalso
          subst h1
          exact hii hidx.symm
        · exact ⟨it, List.mem_append_left _ h1, hidx⟩
  · -- out_sorted
    rw [hout]
    by_cases hdup : s.lastWritten = some item.line
    · rw [if_pos hdup]; exact inv.out_sorted
    · rw [if_neg hdup]
      refine List.pairwise_append.mpr ⟨inv.out_sorted, by simp, ?_⟩
      intro y hy z hz
      have hz' : z = item.line := by simpa using hz
      subst hz'
      cases hlast : s.lastWritten with
      | none =>
        rw [inv.last_eq] at hlast
        rw [List.getLast?_eq_none_iff.mp hlast] at hy
        simp at hy
      | some w =>
        have hwlt : lineLt w item.line := by
          refine lineLt_iff_le_ne.mpr ⟨inv.last_le w hlast item.line hline_mem, ?_⟩
          intro he
          exact hdup (by rw [hlast, he])
        have hlast' : s.out.getLast? = some w := by rw [← inv.last_eq]; exact hlast
        rcases sorted_lt_mem_getLast? inv.out_sorted hlast' hy with rfl | hylt
        · exact hwlt
        · exact lineLt_trans hylt hwlt
  · -- last_eq
    rw [hout, hlw]
    by_cases hdup : s.lastWritten = some item.line
    · rw [if_pos hdup, if_pos hdup]
      exact inv.last_eq
    · rw [if_neg hdup, if_neg hdup, List.getLast?_concat]
  · -- last_le
    intro w hw x hx
    have hx' := hrem_sub x hx
    by_cases hdup : s.lastWritten = some item.line
    · rw [hlw, if_pos hdup, hdup] at hw
      have : w = item.line := by simpa using hw.symm
      subst this
      exact hmin x hx'
    · rw [hlw, if_neg hdup] at hw
      have : w = item.line := by simpa using hw.symm
      subst this
      exact hmin x hx'
  · -- mem_iff
    intro x
    constructor
    · rintro (hx | hx)
      · rw [hout] at hx
        by_cases hdup : s.lastWritten = some item.line
        · rw [if_pos hdup] at hx
          exact (inv.mem_iff x).mp (Or.inl hx)
        · rw [if_neg hdup] at hx
          rcases List.mem_append.mp hx with hx | hx
          · exact (inv.mem_iff x).mp (Or.inl hx)
          · have hxe : x = item.line := by simpa using hx
            rw [hxe]
            exact (inv.mem_iff item.line).mp (Or.inr hline_mem)
      · exact (inv.mem_iff x).mp (Or.inr (hrem_sub x hx))
    · intro hT
      rcases (inv.mem_iff x).mpr hT with hx | hx
      · left
        rw [hout]
        by_cases hdup : s.lastWritten = some item.line
        · rw [if_pos hdup]; exact hx
        · rw [if_neg hdup]; exact List.mem_append_left _ hx
      · rcases List.mem_cons.mp (hrem.mem_iff.mp hx) with hx | hx
        · rw [hx]
          left
          rw [hout]
          by_cases hdup : s.lastWritten = some item.line
          · rw [if_pos hdup]
            have hlast' : s.out.getLast? = some item.line := by
              rw [← inv.last_eq]; exact hdup
            obtain ⟨ys, hys⟩ := List.getLast?_eq_some_iff.mp hlast'
            rw [hys]
            exact List.mem_append_right _ (List.mem_singleton_self _)
          · rw [if_neg hdup]
            exact List.mem_append_right _ (List.mem_singleton_self _)
        · exact Or.inr hx

/-! ### The initial state satisfies the invariant -/

theorem getD_cons_succ {c : List Line} {rest : List (List Line)} {j : Nat} :
    (c :: rest).getD (j + 1) [] = rest.getD j [] := by
  rw [List.getD_eq_getElem?_getD, List.getD_eq_getElem?_getD, List.getElem?_cons_succ]

/-- Every primed heap item is the head of its source, tagged with that
source's position. -/
theorem initHeapAux_spec : ∀ (k : Nat) (cs : List (List Line)) (it : HeapItem),
    it ∈ initHeapAux k cs →
      ∃ j ls, cs.getD j [] = it.line :: ls ∧ it.index = k + j := by
  intro k cs
  induction cs generalizing k with
  | nil => intro it h; simp [initHeapAux] at h
  | cons c rest ih =>
    intro it h
    cases c with
    | nil =>
      obtain ⟨j, ls, hj, hidx⟩ := ih (k + 1) it h
      refine ⟨j + 1, ls, ?_, by omega⟩
      rw [getD_cons_succ]
      exact hj
    | cons l t =>
      rcases List.mem_cons.mp h with h1 | h1
      · exact ⟨0, t, by simp [h1], by simp [h1]⟩
      · obtain ⟨j, ls, hj, hidx⟩ := ih (k + 1) it h1
        refine ⟨j + 1, ls, ?_, by omega⟩
        rw [getD_cons_succ]
        exact hj

/-- Conversely, every non-empty source got a primed heap item. -/
theorem initHeapAux_covers : ∀ (k : Nat) (cs : List (List Line)) (j : Nat) (l : Line)
    (ls : List Line), cs.getD j [] = l :: ls →
      ∃ it ∈ initHeapAux k cs, it.index = k + j ∧ it.line = l := by
  intro k cs
  induction cs generalizing k with
  | nil => intro j l ls h; simp [List.getD] at h
  | cons c rest ih =>
    intro j l ls h
    cases j with
    | zero =>
      have hc : c = l :: ls := h
      subst hc
      exact ⟨({ line := l, index := k } : HeapItem), List.mem_cons_self _ _, by simp, rfl⟩
    | succ j =>
      rw [getD_cons_succ] at h
      obtain ⟨it, hmem, hidx, hline⟩ := ih (k + 1) j l ls h
      cases c with
      | nil => exact ⟨it, hmem, by omega, hline⟩
      | cons c0 ct => exact ⟨it, List.mem_cons_of_mem _ hmem, by omega, hline⟩

theorem initHeapAux_idx_lb : ∀ (k : Nat) (cs : List (List Line)) (it : HeapItem),
    it ∈ initHeapAux k cs → k ≤ it.index := by
  intro k cs it h
  obtain ⟨j, ls, -, hidx⟩ := initHeapAux_spec k cs it h
  omega

theorem initHeapAux_idx_nodup : ∀ (k : Nat) (cs : List (List Line)),
    ((initHeapAux k cs).map HeapItem.index).Nodup := by
  intro k cs
  induction cs generalizing k with
  | nil => simp [initHeapAux]
  | cons c rest ih =>
    cases c with
    | nil => exact ih (k + 1)
    | cons l t =>
      simp only [initHeapAux, List.map_cons, List.nodup_cons]
      refine ⟨?_, ih (k + 1)⟩
      intro hmem
      obtain ⟨it, hit, hidx⟩ := List.mem_map.mp hmem
      have hb : ({ line := l, index := k } : HeapItem).index = k := rfl
      have hlb := initHeapAux_idx_lb (k + 1) rest it hit
      omega

/-- After priming, the heap lines plus the tails hold exactly the sources'
lines. -/
theorem initHeap_remaining : ∀ (k : Nat) (cs : List (List Line)),
    ((initHeapAux k cs).map HeapItem.line ++ (cs.map List.tail).flatten).Perm cs.flatten := by
  intro k cs
  induction cs generalizing k with
  | nil => simp [initHeapAux]
  | cons c rest ih =>
    cases c with
    | nil =>
      simpa [initHeapAux] using ih (k + 1)
    | cons l t =>
      simp only [initHeapAux, List.map_cons, List.flatten_cons, List.cons_append,
        List.tail_cons]
      refine List.Perm.cons l ?_
      have hre : (initHeapAux (k + 1) rest).map HeapItem.line ++ (t ++ (rest.map List.tail).flatten)
          = ((initHeapAux (k + 1) rest).map HeapItem.line ++ t) ++ (rest.map List.tail).flatten := by
        rw [List.append_assoc]
      rw [hre]
      have hswap : (((initHeapAux (k + 1) rest).map HeapItem.line ++ t)
            ++ (rest.map List.tail).flatten).Perm
          ((t ++ (initHeapAux (k + 1) rest).map HeapItem.line)
            ++ (rest.map List.tail).flatten) :=
        List.perm_append_comm.append_right _
      refine hswap.trans ?_
      rw [List.append_assoc]
      exact (ih (k + 1)).append_left t

/-- The primed state satisfies the merge invariant for sorted sources. -/
theorem initMergeState_inv (sources : List (List Line))
    (hs : ∀ c ∈ sources, List.Sorted lineLe c) :
    MergeInv sources.flatten (initMergeState sources) := by
  refine ⟨?_, ?_, ?_, ?_, ?_, ?_, ?_, ?_⟩
  · intro r hr
    obtain ⟨c, hc, hrc⟩ := List.mem_map.mp hr
    rw [← hrc]
    cases c with
    | nil => simp
    | cons l t => exact (List.sorted_cons.mp (hs _ hc)).2
  · intro it hit x hx
    obtain ⟨j, ls, hj, hidx⟩ := initHeapAux_spec 0 sources it hit
    have hidx' : it.index = j := by omega
    rw [show (initMergeState sources).readers = sources.map List.tail from rfl,
      getD_map_tail, hidx', hj] at hx
    have hcons : (it.line :: ls) ∈ sources := by
      rw [← hj]
      exact getD_mem_of_ne_nil (by rw [hj]; simp)
    exact List.rel_of_sorted_cons (hs _ hcons) x (by simpa using hx)
  · exact initHeapAux_idx_nodup 0 sources
  · intro i hi
    rw [show (initMergeState sources).readers = sources.map List.tail from rfl,
      getD_map_tail] at hi
    cases hsi : sources.getD i [] with
    | nil => rw [hsi] at hi; simp at hi
    | cons l ls =>
      obtain ⟨it, hmem, hidx, -⟩ := initHeapAux_covers 0 sources i l ls hsi
      exact ⟨it, hmem, by omega⟩
  · exact List.Pairwise.nil
  · rfl
  · intro w hw
    simp [initMergeState] at hw
  · intro x
    have hperm := initHeap_remaining 0 sources
    constructor
    · rintro (hx | hx)
      · simp [initMergeState] at hx
      · exact hperm.mem_iff.mp hx
    · intro hx
      exact Or.inr (hperm.mem_iff.mpr hx)

/-! ### End-to-end merge correctness -/

theorem MergeInv.iter {T : List Line} {s : MergeState} (inv : MergeInv T s) :
    ∀ n, MergeInv T (mergeIter n s)
  | 0 => inv
  | n + 1 => by
    cases hstep : mergeStep s with
    | none => simpa [mergeIter, hstep] using inv
    | some s' =>
      simp only [mergeIter, hstep]
      exact (inv.step hstep).iter n

theorem MergeInv.final {T : List Line} {s : MergeState} (inv : MergeInv T s)
    (hh : s.heap = []) :
    List.Sorted lineLt s.out ∧ ∀ l, l ∈ s.out ↔ l ∈ T := by
  have hreaders : s.readers.flatten = [] := by
    rw [List.flatten_eq_nil_iff]
    intro r hr
    by_contra hne
    obtain ⟨i, hi⟩ := exists_getD_of_mem hr
    have hne' : s.readers.getD i [] ≠ [] := by rw [hi]; exact hne
    obtain ⟨it, hit, -⟩ := inv.covered i hne'
    rw [hh] at hit
    simp at hit
  have hrem : remainingLines s = [] := by
    unfold remainingLines
    rw [hh, hreaders]
    simp
  refine ⟨inv.out_sorted, fun l => ?_⟩
  have hm := inv.mem_iff l
  rw [hrem] at hm
  simpa using hm

/-- Merging sorted sources yields a strictly sorted output holding exactly
the sources' lines. -/
theorem mergeSources_correct (sources : List (List Line))
    (hs : ∀ c ∈ sources, List.Sorted lineLe c) :
    List.Sorted lineLt (mergeSources sources) ∧
      ∀ l, l ∈ mergeSources sources ↔ l ∈ sources.flatten := by
  have inv0 := initMergeState_inv sources hs
  have invn := inv0.iter (mergeMeasure (initMergeState sources))
  exact invn.final (mergeIter_heap_nil _ _ le_rfl)

/-! ### Pipeline-level lemmas -/

/-- A strictly sorted line list is determined by its set of members. -/
theorem sorted_lt_eq_of_mem_iff {l₁ l₂ : List Line}
    (h₁ : List.Sorted lineLt l₁) (h₂ : List.Sorted lineLt l₂)
    (hm : ∀ x, x ∈ l₁ ↔ x ∈ l₂) : l₁ = l₂ :=
  List.eq_of_perm_of_sorted ((List.perm_ext_iff_of_nodup h₁.nodup h₂.nodup).mpr hm) h₁ h₂

theorem sortLines_sorted (buffer : List Line) : List.Sorted lineLe (sortLines buffer) :=
  List.sorted_insertionSort lineLe buffer

theorem sortLines_perm (buffer : List Line) : (sortLines buffer).Perm buffer :=
  List.perm_insertionSort lineLe buffer

/-- Re-reading a chunk file written from well-delimited lines recovers the
sorted buffer: line boundaries survive the round trip through the file. -/
theorem splitLines_write_sorted_chunk {buffer : List Line}
    (h : ∀ l ∈ buffer, GoodLine l) :
    splitLines (write_sorted_chunk buffer) = sortLines buffer := by
  apply splitLines_flatten
  intro l hl
  exact h l ((sortLines_perm buffer).mem_iff.mp hl)

theorem flatten_map_sortLines_perm : ∀ (gs : List (List Line)),
    ((gs.map sortLines).flatten).Perm gs.flatten
  | [] => List.Perm.refl _
  | g :: gs => by
    simp only [List.map_cons, List.flatten_cons]
    exact (sortLines_perm g).append (flatten_map_sortLines_perm gs)

/-- Main correctness of the pipeline on delimiter-terminated (or empty)
input: the output lines are strictly sorted and are exactly the distinct
input lines. -/
theorem outputLines_correct (chunkSize : Nat) (input : List Byte)
    (hcap : 1 ≤ chunkSize) (hterm : input = [] ∨ input.getLast? = some newline) :
    List.Sorted lineLt (outputLines chunkSize input) ∧
      ∀ l, l ∈ outputLines chunkSize input ↔ l ∈ splitLines input := by
  have hgood := splitLines_good hterm
  rw [outputLines, split_into_chunks_eq chunkSize hcap, merge_chunks]
  have hsrc : ((chunkGroups chunkSize (splitLines input)).map write_sorted_chunk).map splitLines
      = (chunkGroups chunkSize (splitLines input)).map sortLines := by
    rw [List.map_map]
    apply List.map_congr_left
    intro g hgmem
    show splitLines (write_sorted_chunk g) = sortLines g
    apply splitLines_write_sorted_chunk
    intro l hl
    apply hgood
    rw [← chunkGroups_flatten chunkSize (splitLines input)]
    exact List.mem_flatten.mpr ⟨g, hgmem, hl⟩
  rw [hsrc]
  have hsorted : ∀ c ∈ (chunkGroups chunkSize (splitLines input)).map sortLines,
      List.Sorted lineLe c := by
    intro c hc
    obtain ⟨g, hgmem, hge⟩ := List.mem_map.mp hc
    rw [← hge]
    exact sortLines_sorted g
  obtain ⟨h1, h2⟩ := mergeSources_correct _ hsorted
  refine ⟨h1, fun l => (h2 l).trans ?_⟩
  rw [(flatten_map_sortLines_perm (chunkGroups chunkSize (splitLines input))).mem_iff,
    chunkGroups_flatten]

/-- The concatenation of well-delimited lines is empty or ends in the
delimiter. -/
theorem flatten_getLast?_newline {L : List Line} (h : ∀ l ∈ L, GoodLine l) :
    L.flatten = [] ∨ (L.flatten).getLast? = some newline := by
  induction L with
  | nil => exact Or.inl rfl
  | cons l rest ih =>
    right
    simp only [List.flatten_cons]
    rcases ih (fun x hx => h x (List.mem_cons_of_mem _ hx)) with hnil | hlast
    · rw [hnil, List.append_nil]
      exact goodLine_getLast? (h l (List.mem_cons_self _ _))
    · rw [List.getLast?_append, hlast]
      rfl

/-- Idempotence on delimiter-terminated input: re-running the pipeline on
its own output reproduces the output byte for byte. -/
theorem mainOutput_idem (chunkSize : Nat) (input : List Byte)
    (hcap : 1 ≤ chunkSize) (hterm : input = [] ∨ input.getLast? = some newline) :
    mainOutput chunkSize (mainOutput chunkSize input) = mainOutput chunkSize input := by
  obtain ⟨hs1, hm1⟩ := outputLines_correct chunkSize input hcap hterm
  have hOgood : ∀ l ∈ outputLines chunkSize input, GoodLine l :=
    fun l hl => splitLines_good hterm l ((hm1 l).mp hl)
  have hterm2 : mainOutput chunkSize input = []
      ∨ (mainOutput chunkSize input).getLast? = some newline := by
    rw [mainOutput]
    exact flatten_getLast?_newline hOgood
  obtain ⟨hs2, hm2⟩ := outputLines_correct chunkSize (mainOutput chunkSize input) hcap hterm2
  have hsplit : splitLines (mainOutput chunkSize input) = outputLines chunkSize input := by
    rw [mainOutput]
    exact splitLines_flatten hOgood
  have hout : outputLines chunkSize (mainOutput chunkSize input)
      = outputLines chunkSize input := by
    apply sorted_lt_eq_of_mem_iff hs2 hs1
    intro x
    refine (hm2 x).trans ?_
    rw [hsplit]
  rw [mainOutput, hout, ← mainOutput]

/-! ### Explicit step computation (both reader cases) -/

theorem mergeStep_eq_nil {s : MergeState} {item : HeapItem} {rest : List HeapItem}
    (hpop : heapPop s.heap = some (item, rest))
    (hr : s.readers.getD item.index [] = []) :
    mergeStep s = some ⟨s.readers, rest,
      if s.lastWritten = some item.line then s.lastWritten else some item.line,
      if s.lastWritten = some item.line then s.out else s.out ++ [item.line]⟩ := by
  unfold mergeStep
  rw [hpop]
  simp only
  rw [hr]

theorem mergeStep_eq_cons {s : MergeState} {item : HeapItem} {rest : List HeapItem}
    {l : Line} {ls : List Line} (hpop : heapPop s.heap = some (item, rest))
    (hr : s.readers.getD item.index [] = l :: ls) :
    mergeStep s = some ⟨s.readers.set item.index ls,
      rest ++ [({ line := l, index := item.index } : HeapItem)],
      if s.lastWritten = some item.line then s.lastWritten else some item.line,
      if s.lastWritten = some item.line then s.out else s.out ++ [item.line]⟩ := by
  unfold mergeStep
  rw [hpop]
  simp only
  rw [hr]

/-! ### Cleanup and flush (lines 139-144 of `main.rs`)

The tail of `merge_chunks` loops `for f in chunk_files { let _ =
fs::remove_file(f); }` — each deletion's result is discarded — and then
runs `out.flush()?`.  Deletion outcomes are abstracted by an oracle;
the flush outcome by a boolean.  The event trace records the order of the
observable effects. -/

/-- One `fs::remove_file(f)` call, its success decided by the oracle. -/
def removeFileResult (deleteOk : List Byte → Bool) (f : List Byte) : Except Unit Unit :=
  if deleteOk f then Except.ok () else Except.error ()

/-- The cleanup loop and final flush: every chunk file's deletion result is
bound to `_` and discarded; the flush's failure propagates (`?`). -/
def mergeFinish (out : List Line) (chunkFiles : List (List Byte))
    (deleteOk : List Byte → Bool) (flushOk : Bool) : Except Unit (List Line) :=
  match chunkFiles with
  | [] => if flushOk then Except.ok out else Except.error ()
  | f :: rest =>
    let _ := removeFileResult deleteOk f
    mergeFinish out rest deleteOk flushOk

/-- `merge_chunks` with its cleanup semantics: merge, then delete the chunk
files (best effort), then flush. -/
def merge_chunks_result (chunkFiles : List (List Byte))
    (deleteOk : List Byte → Bool) (flushOk : Bool) : Except Unit (List Line) :=
  mergeFinish (merge_chunks chunkFiles) chunkFiles deleteOk flushOk

/-- Observable events at the end of `merge_chunks`: each line written
during the merge loop (lines 121-135), each chunk-file deletion of the
cleanup loop (lines 139-141), and the output flush (line 143), in program
order. -/
inductive MergeEvent
  | writeLine (l : Line)
  | deleteUnit (f : List Byte)
  | flushOut
deriving DecidableEq

/-- The ordered trace of `merge_chunks`'s observable events: all writes
(during the loop), then all chunk-file deletions (in `chunk_files` order),
then the flush. -/
def mergeTrace (chunkFiles : List (List Byte)) : List MergeEvent :=
  (merge_chunks chunkFiles).map MergeEvent.writeLine
    ++ ((chunkFiles.map MergeEvent.deleteUnit) ++ [MergeEvent.flushOut])

theorem mergeTrace_writeLine_pos {chunkFiles : List (List Byte)} {k : Nat} {l : Line}
    (h : (mergeTrace chunkFiles)[k]? = some (MergeEvent.writeLine l)) :
    k < ((merge_chunks chunkFiles).map MergeEvent.writeLine).length := by
  by_contra hge
  push_neg at hge
  unfold mergeTrace at h
  rw [List.getElem?_append_right hge] at h
  have hmem := List.getElem?_mem h
  rcases List.mem_append.mp hmem with hmem | hmem
  · obtain ⟨x, -, hx⟩ := List.mem_map.mp hmem
    simp at hx
  · simp at hmem

theorem mergeTrace_deleteUnit_pos {chunkFiles : List (List Byte)} {i : Nat} {f : List Byte}
    (h : (mergeTrace chunkFiles)[i]? = some (MergeEvent.deleteUnit f)) :
    ((merge_chunks chunkFiles).map MergeEvent.writeLine).length ≤ i ∧
      i < ((merge_chunks chunkFiles).map MergeEvent.writeLine).length
          + (chunkFiles.map MergeEvent.deleteUnit).length := by
  constructor
  · by_contra hlt
    push_neg at hlt
    unfold mergeTrace at h
    rw [List.getElem?_append, if_pos hlt] at h
    have hmem := List.getElem?_mem h
    obtain ⟨x, -, hx⟩ := List.mem_map.mp hmem
    simp at hx
  · by_contra hge
    push_neg at hge
    unfold mergeTrace at h
    rw [List.getElem?_append_right (by omega)] at h
    rw [List.getElem?_append_right (by omega)] at h
    have hmem := List.getElem?_mem h
    simp at hmem

theorem mergeTrace_flushOut_pos {chunkFiles : List (List Byte)} {j : Nat}
    (h : (mergeTrace chunkFiles)[j]? = some MergeEvent.flushOut) :
    ((merge_chunks chunkFiles).map MergeEvent.writeLine).length
      + (chunkFiles.map MergeEvent.deleteUnit).length ≤ j := by
  have h1 : ((merge_chunks chunkFiles).map MergeEvent.writeLine).length ≤ j := by
    by_contra hlt
    push_neg at hlt
    unfold mergeTrace at h
    rw [List.getElem?_append, if_pos hlt] at h
    have hmem := List.getElem?_mem h
    obtain ⟨x, -, hx⟩ := List.mem_map.mp hmem
    simp at hx
  by_contra hlt2
  push_neg at hlt2
  unfold mergeTrace at h
  rw [List.getElem?_append_right h1] at h
  rw [List.getElem?_append, if_pos (by omega)] at h
  have hmem := List.getElem?_mem h
  obtain ⟨x, -, hx⟩ := List.mem_map.mp hmem
  simp at hx

theorem mergeFinish_ok : ∀ (chunkFiles : List (List Byte)) (out : List Line)
    (deleteOk : List Byte → Bool), mergeFinish out chunkFiles deleteOk true = Except.ok out
  | [], _, _ => rfl
  | _ :: rest, out, dOk => mergeFinish_ok rest out dOk

theorem mergeFinish_flush_fail : ∀ (chunkFiles : List (List Byte)) (out : List Line)
    (deleteOk : List Byte → Bool), mergeFinish out chunkFiles deleteOk false = Except.error ()
  | [], _, _ => rfl
  | _ :: rest, out, dOk => mergeFinish_flush_fail rest out dOk

/-- In a strictly sorted list, a smaller member sits at a smaller position. -/
theorem sorted_lt_getElem?_lt {l : List Line} (hs : List.Sorted lineLt l)
    {i j : Nat} {x y : Line} (hi : l[i]? = some x) (hj : l[j]? = some y)
    (hxy : lineLt x y) : i < j := by
  obtain ⟨hil, hie⟩ := List.getElem?_eq_some_iff.mp hi
  obtain ⟨hjl, hje⟩ := List.getElem?_eq_some_iff.mp hj
  by_contra hge
  push_neg at hge
  rcases Nat.lt_or_ge j i with hlt | hge2
  · have hr := List.pairwise_iff_getElem.mp hs j i hjl hil hlt
    rw [hie, hje] at hr
    exact lineLt_asymm hxy hr
  · have hij : i = j := by omega
    subst hij
    rw [hie] at hje
    rw [hje] at hxy
    exact lineLt_irrefl y hxy

/-- Distinctness of heap indices is preserved by one merge iteration, for
arbitrary (not necessarily sorted) reader contents. -/
theorem mergeStep_idx_nodup {s s' : MergeState} (h : mergeStep s = some s')
    (hn : (s.heap.map HeapItem.index).Nodup) :
    (s'.heap.map HeapItem.index).Nodup := by
  obtain ⟨item, rest, hp, -, -, hcase⟩ := mergeStep_some h
  have hheap_perm := heapPop_perm hp
  have hnodup_cons : ((item :: rest).map HeapItem.index).Nodup :=
    ((hheap_perm.map HeapItem.index).nodup_iff).mpr hn
  rcases hcase with ⟨-, -, hhp⟩ | ⟨l, ls, -, -, hhp⟩
  · rw [hhp]
    exact (List.nodup_cons.mp hnodup_cons).2
  · rw [hhp]
    have hperm : ((rest ++ [({ line := l, index := item.index } : HeapItem)]).map
          HeapItem.index).Perm (item.index :: rest.map HeapItem.index) := by
      have hps := (List.perm_append_singleton
        ({ line := l, index := item.index } : HeapItem) rest).map HeapItem.index
      simpa using hps
    exact hperm.nodup_iff.mpr hnodup_cons

/-- The merge state after `n` loop iterations on the given sources. -/
def mergeStateAt (sources : List (List Line)) (n : Nat) : MergeState :=
  mergeIter n (initMergeState sources)

theorem mergeIter_idx_nodup (sources : List (List Line)) :
    ∀ n, ((mergeStateAt sources n).heap.map HeapItem.index).Nodup
  | 0 => initHeapAux_idx_nodup 0 sources
  | n + 1 => by
    unfold mergeStateAt
    rw [mergeIter_succ_eq]
    cases hstep : mergeStep (mergeIter n (initMergeState sources)) with
    | none => exact mergeIter_idx_nodup sources n
    | some t => exact mergeStep_idx_nodup hstep (mergeIter_idx_nodup sources n)

/-- A tiny concrete merge state (one exhausted reader, one buffered line),
used to witness the per-step theorems. -/
def c2State : MergeState :=
  { readers := [[]], heap := [{ line := [97], index := 0 }], lastWritten := none, out := [] }

/-- The single heap item of `c2State`. -/
def c2Item : HeapItem := { line := [97], index := 0 }

/-! ## Claim theorems -/

/-- C1 (counterexample): on the input `"ma\nmb\nm"` (whose final line lacks
its delimiter) with `chunk_capacity = 3`, the output is NOT the sorted
sequence of the distinct input lines: the chunk file concatenates `"m"`
with `"ma\n"`, the merge re-reads `"mma\n"`, and the input line `"ma\n"`
is absent from the output (the output lines are also out of order). -/
theorem pipeline_sorted_dedup_fails :
    ¬ (List.Chain' lineLt (outputLines 3 [109, 97, 10, 109, 98, 10, 109]) ∧
        ∀ l, l ∈ outputLines 3 [109, 97, 10, 109, 98, 10, 109]
          ↔ l ∈ splitLines [109, 97, 10, 109, 98, 10, 109]) := by
  intro h
  have h2 := (h.2 [109, 97, 10]).mpr (by decide)
  exact absurd h2 (by decide)

/-- C1 (amended): for `chunk_capacity ≥ 1` and every input byte stream that
is empty or ends with the delimiter, the pipeline `split_into_chunks` then
`merge_chunks` outputs strictly increasing lines whose set is exactly the
set of distinct input lines. -/
theorem pipeline_sorted_dedup (chunkSize : Nat) (input : List Byte)
    (hcap : 1 ≤ chunkSize) (hterm : input = [] ∨ input.getLast? = some newline) :
    List.Chain' lineLt (outputLines chunkSize input) ∧
      ∀ l, l ∈ outputLines chunkSize input ↔ l ∈ splitLines input := by
  obtain ⟨h1, h2⟩ := outputLines_correct chunkSize input hcap hterm
  exact ⟨h1.chain', h2⟩

/-- Witness for C1 (amended) at `chunk_capacity = 2`, input `"b\na\na\nc\n"`. -/
theorem pipeline_sorted_dedup_witness :
    (1 ≤ 2 ∧ (([98, 10, 97, 10, 97, 10, 99, 10] : List Byte) = []
        ∨ ([98, 10, 97, 10, 97, 10, 99, 10] : List Byte).getLast? = some newline)) ∧
      (List.Chain' lineLt (outputLines 2 [98, 10, 97, 10, 97, 10, 99, 10]) ∧
        ∀ l, l ∈ outputLines 2 [98, 10, 97, 10, 97, 10, 99, 10]
          ↔ l ∈ splitLines [98, 10, 97, 10, 97, 10, 99, 10]) :=
  ⟨⟨by decide, by decide⟩,
    pipeline_sorted_dedup 2 [98, 10, 97, 10, 97, 10, 99, 10] (by decide) (by decide)⟩

/-- C2: each merge iteration pops a heap-minimal line; it is written (and
recorded as most recently written) iff it differs from the single most
recently written line or none was written yet, it is discarded otherwise,
and the decision reads only `last_written`, never the earlier output: for
any alternative output prefix `o` the step behaves identically. -/
theorem merge_step_dedup (s : MergeState) (item : HeapItem) (rest : List HeapItem)
    (hpop : heapPop s.heap = some (item, rest)) :
    (∀ x ∈ s.heap, lineLe item.line x.line) ∧
    ∃ s', mergeStep s = some s' ∧
      (s.lastWritten ≠ some item.line →
        s'.out = s.out ++ [item.line] ∧ s'.lastWritten = some item.line) ∧
      (s.lastWritten = some item.line →
        s'.out = s.out ∧ s'.lastWritten = s.lastWritten) ∧
      (∀ o : List Line, mergeStep { s with out := o }
          = some { s' with
              out := if s.lastWritten = some item.line then o else o ++ [item.line] }) := by
  refine ⟨heapPop_min hpop, ?_⟩
  cases hr : s.readers.getD item.index [] with
  | nil =>
    refine ⟨⟨s.readers, rest,
      if s.lastWritten = some item.line then s.lastWritten else some item.line,
      if s.lastWritten = some item.line then s.out else s.out ++ [item.line]⟩,
      mergeStep_eq_nil hpop hr, ?_, ?_, ?_⟩
    · intro hd
      constructor
      · show (if s.lastWritten = some item.line then s.out else s.out ++ [item.line]) = _
        rw [if_neg hd]
      · show (if s.lastWritten = some item.line then s.lastWritten else some item.line) = _
        rw [if_neg hd]
    · intro hd
      constructor
      · show (if s.lastWritten = some item.line then s.out else s.out ++ [item.line]) = _
        rw [if_pos hd]
      · show (if s.lastWritten = some item.line then s.lastWritten else some item.line) = _
        rw [if_pos hd]
    · intro o
      rw [mergeStep_eq_nil (s := { s with out := o }) hpop hr]
  | cons l ls =>
    refine ⟨⟨s.readers.set item.index ls,
      rest ++ [({ line := l, index := item.index } : HeapItem)],
      if s.lastWritten = some item.line then s.lastWritten else some item.line,
      if s.lastWritten = some item.line then s.out else s.out ++ [item.line]⟩,
      mergeStep_eq_cons hpop hr, ?_, ?_, ?_⟩
    · intro hd
      constructor
      · show (if s.lastWritten = some item.line then s.out else s.out ++ [item.line]) = _
        rw [if_neg hd]
      · show (if s.lastWritten = some item.line then s.lastWritten else some item.line) = _
        rw [if_neg hd]
    · intro hd
      constructor
      · show (if s.lastWritten = some item.line then s.out else s.out ++ [item.line]) = _
        rw [if_pos hd]
      · show (if s.lastWritten = some item.line then s.lastWritten else some item.line) = _
        rw [if_pos hd]
    · intro o
      rw [mergeStep_eq_cons (s := { s with out := o }) hpop hr]

/-- Witness for C2 at the concrete state `c2State`. -/
theorem merge_step_dedup_witness :
    heapPop c2State.heap = some (c2Item, []) ∧
      ((∀ x ∈ c2State.heap, lineLe c2Item.line x.line) ∧
        ∃ s', mergeStep c2State = some s' ∧
          (c2State.lastWritten ≠ some c2Item.line →
            s'.out = c2State.out ++ [c2Item.line] ∧ s'.lastWritten = some c2Item.line) ∧
          (c2State.lastWritten = some c2Item.line →
            s'.out = c2State.out ∧ s'.lastWritten = c2State.lastWritten) ∧
          (∀ o : List Line, mergeStep { c2State with out := o }
              = some { s' with
                  out := if c2State.lastWritten = some c2Item.line
                    then o else o ++ [c2Item.line] })) :=
  ⟨rfl, merge_step_dedup c2State c2Item [] rfl⟩

/-- C3: `split_into_chunks` spills exactly the contiguous `chunk_capacity`-
sized groups of the input lines (each sorted by `write_sorted_chunk`, the
buffer then cleared), so empty input yields no spill units and an input of
`n` lines with `1 ≤ n ≤ chunk_capacity` yields exactly one. -/
theorem split_into_chunks_spec (chunkSize : Nat) (input : List Byte) (hcap : 1 ≤ chunkSize) :
    split_into_chunks chunkSize input
        = (chunkGroups chunkSize (splitLines input)).map write_sorted_chunk ∧
      (input = [] → split_into_chunks chunkSize input = []) ∧
      (1 ≤ (splitLines input).length → (splitLines input).length ≤ chunkSize →
        (split_into_chunks chunkSize input).length = 1) := by
  refine ⟨split_into_chunks_eq chunkSize hcap input, ?_, ?_⟩
  · rintro rfl
    rfl
  · intro h1 h2
    rw [split_into_chunks_eq chunkSize hcap input, List.length_map]
    cases hls : splitLines input with
    | nil => rw [hls] at h1; simp at h1
    | cons l rest =>
      rw [hls] at h2
      have hlen : rest.length ≤ chunkSize - 1 := by
        simp at h2
        omega
      rw [chunkGroups_cons, List.drop_eq_nil_of_le hlen, chunkGroups_nil]
      rfl

/-- Witness for C3 at `chunk_capacity = 2`, input `"a\nb\n"`. -/
theorem split_into_chunks_spec_witness :
    1 ≤ 2 ∧
      (split_into_chunks 2 [97, 10, 98, 10]
          = (chunkGroups 2 (splitLines [97, 10, 98, 10])).map write_sorted_chunk ∧
        ([97, 10, 98, 10] = ([] : List Byte) → split_into_chunks 2 [97, 10, 98, 10] = []) ∧
        (1 ≤ (splitLines [97, 10, 98, 10]).length →
          (splitLines [97, 10, 98, 10]).length ≤ 2 →
          (split_into_chunks 2 [97, 10, 98, 10]).length = 1)) :=
  ⟨by decide, split_into_chunks_spec 2 [97, 10, 98, 10] (by decide)⟩

/-- C4: for every buffer, the spill unit written by `write_sorted_chunk`
holds the buffer's own lines in non-decreasing byte-lexicographic order
(its byte contents are their concatenation). -/
theorem write_sorted_chunk_sorted (buffer : List Line) :
    List.Chain' lineLe (sortLines buffer) ∧ (sortLines buffer).Perm buffer ∧
      write_sorted_chunk buffer = (sortLines buffer).flatten :=
  ⟨(sortLines_sorted buffer).chain', sortLines_perm buffer, rfl⟩

/-- C5: throughout the merge the heap holds at most one entry per source
(its index lists stay duplicate-free), and each iteration either leaves the
state unchanged (heap empty) or replaces the popped entry by at most one
new entry carrying the same source index, drawn from that source's reader
exactly when it still has a line. -/
theorem merge_one_entry_per_source (sources : List (List Line)) (n : Nat) :
    ((mergeStateAt sources n).heap.map HeapItem.index).Nodup ∧
      (mergeStateAt sources (n + 1) = mergeStateAt sources n ∨
        ∃ item rest, heapPop (mergeStateAt sources n).heap = some (item, rest) ∧
          ((mergeStateAt sources n).readers.getD item.index [] = [] ∧
              (mergeStateAt sources (n + 1)).heap = rest ∨
            ∃ l ls, (mergeStateAt sources n).readers.getD item.index [] = l :: ls ∧
              (mergeStateAt sources (n + 1)).heap
                = rest ++ [({ line := l, index := item.index } : HeapItem)])) := by
  refine ⟨mergeIter_idx_nodup sources n, ?_⟩
  cases hstep : mergeStep (mergeStateAt sources n) with
  | none =>
    left
    unfold mergeStateAt
    rw [mergeIter_succ_eq]
    rw [show mergeStep (mergeIter n (initMergeState sources)) = none from hstep]
  | some t =>
    right
    obtain ⟨item, rest, hp, -, -, hcase⟩ := mergeStep_some hstep
    have hstate : mergeStateAt sources (n + 1) = t := by
      unfold mergeStateAt
      rw [mergeIter_succ_eq]
      rw [show mergeStep (mergeIter n (initMergeState sources)) = some t from hstep]
    refine ⟨item, rest, hp, ?_⟩
    rcases hcase with ⟨hr, -, hhp⟩ | ⟨l, ls, hr, -, hhp⟩
    · exact Or.inl ⟨hr, by rw [hstate]; exact hhp⟩
    · exact Or.inr ⟨l, ls, hr, by rw [hstate]; exact hhp⟩

/-- C6: the merge loop terminates — `mergeMeasure s` iterations drain the
heap — the empty heap is its sole exit condition, and every successful
iteration consumes exactly one of the finitely many remaining lines. -/
theorem merge_loop_terminates (s : MergeState) :
    (mergeIter (mergeMeasure s) s).heap = [] ∧
      (mergeStep s = none ↔ s.heap = []) ∧
      ∀ s', mergeStep s = some s' → mergeMeasure s' + 1 = mergeMeasure s :=
  ⟨mergeIter_heap_nil _ s le_rfl, mergeStep_none_iff, fun _ h => mergeStep_measure h⟩

/-- Witness for C6 at the concrete state `c2State`. -/
theorem merge_loop_terminates_witness :
    (mergeIter (mergeMeasure c2State) c2State).heap = [] ∧
      (mergeStep c2State = none ↔ c2State.heap = []) ∧
      ∀ s', mergeStep c2State = some s' → mergeMeasure s' + 1 = mergeMeasure c2State :=
  merge_loop_terminates c2State

/-- C7 (counterexample): on the original input `"ma\nmb\nm"` with
`chunk_capacity = 3`, the first run outputs `"mma\nmb\n"` and the second
run re-sorts it to `"mb\nmma\n"` — not byte-identical. -/
theorem pipeline_idempotence_fails :
    mainOutput 3 (mainOutput 3 [109, 97, 10, 109, 98, 10, 109])
      ≠ mainOutput 3 [109, 97, 10, 109, 98, 10, 109] := by
  decide

/-- C7 (amended): for `chunk_capacity ≥ 1` and every original input that is
empty or ends with the delimiter, re-running the pipeline on the output
byte stream reproduces it byte for byte. -/
theorem pipeline_idempotent (chunkSize : Nat) (input : List Byte)
    (hcap : 1 ≤ chunkSize) (hterm : input = [] ∨ input.getLast? = some newline) :
    mainOutput chunkSize (mainOutput chunkSize input) = mainOutput chunkSize input :=
  mainOutput_idem chunkSize input hcap hterm

/-- Witness for C7 (amended) at `chunk_capacity = 2`, input `"b\na\na\nc\n"`. -/
theorem pipeline_idempotent_witness :
    (1 ≤ 2 ∧ (([98, 10, 97, 10, 97, 10, 99, 10] : List Byte) = []
        ∨ ([98, 10, 97, 10, 97, 10, 99, 10] : List Byte).getLast? = some newline)) ∧
      mainOutput 2 (mainOutput 2 [98, 10, 97, 10, 97, 10, 99, 10])
        = mainOutput 2 [98, 10, 97, 10, 97, 10, 99, 10] :=
  ⟨⟨by decide, by decide⟩,
    pipeline_idempotent 2 [98, 10, 97, 10, 97, 10, 99, 10] (by decide) (by decide)⟩

/-- C8 (counterexample): the output flush does NOT precede the spill-unit
deletions: with one chunk file the trace is write, delete, flush — the
deletion (position 1) precedes the flush (position 2). -/
theorem flush_before_delete_fails :
    ¬ (∀ (chunkFiles : List (List Byte)) (i j : Nat) (f : List Byte),
        (mergeTrace chunkFiles)[i]? = some MergeEvent.flushOut →
        (mergeTrace chunkFiles)[j]? = some (MergeEvent.deleteUnit f) → i < j) := by
  intro h
  have h2 := h [[97]] 2 1 [97] (by decide) (by decide)
  omega

/-- C8 (amended): in `merge_chunks` every chunk-file deletion happens after
all output writes and before the output flush — the code deletes the spill
units (lines 139-141) and only then flushes the output (line 143). -/
theorem cleanup_order (chunkFiles : List (List Byte)) :
    (∀ (i : Nat) (f : List Byte),
      (mergeTrace chunkFiles)[i]? = some (MergeEvent.deleteUnit f) →
      ∀ j : Nat, (mergeTrace chunkFiles)[j]? = some MergeEvent.flushOut → i < j) ∧
    (∀ (k : Nat) (l : Line), (mergeTrace chunkFiles)[k]? = some (MergeEvent.writeLine l) →
      ∀ (i : Nat) (f : List Byte),
        (mergeTrace chunkFiles)[i]? = some (MergeEvent.deleteUnit f) → k < i) := by
  constructor
  · intro i f hi j hj
    have h1 := mergeTrace_deleteUnit_pos hi
    have h2 := mergeTrace_flushOut_pos hj
    omega
  · intro k l hk i f hi
    have h1 := mergeTrace_writeLine_pos hk
    have h2 := mergeTrace_deleteUnit_pos hi
    omega

/-- Witness for C8 (amended) with one chunk file `"a"`. -/
theorem cleanup_order_witness :
    (mergeTrace [[97]])[1]? = some (MergeEvent.deleteUnit [97]) ∧
      (mergeTrace [[97]])[2]? = some MergeEvent.flushOut ∧ 1 < 2 :=
  ⟨by decide, by decide, (cleanup_order [[97]]).1 1 [97] (by decide) 2 (by decide)⟩

/-- C9: cleanup deletion failure is non-fatal and swallowed: whatever the
deletion oracle says, `merge_chunks` returns success with the identical
already-written output; a flush failure, by contrast, propagates as an
error. -/
theorem cleanup_failure_nonfatal (chunkFiles : List (List Byte))
    (deleteOk deleteOk' : List Byte → Bool) :
    merge_chunks_result chunkFiles deleteOk true = Except.ok (merge_chunks chunkFiles) ∧
      merge_chunks_result chunkFiles deleteOk true
        = merge_chunks_result chunkFiles deleteOk' true ∧
      merge_chunks_result chunkFiles deleteOk false = Except.error () := by
  refine ⟨mergeFinish_ok _ _ _, ?_, mergeFinish_flush_fail _ _ _⟩
  rw [merge_chunks_result, merge_chunks_result, mergeFinish_ok, mergeFinish_ok]

/-- C10 (counterexample): on input `"a\na"` with `chunk_capacity = 2` the
lines `"a"` and `"a\n"` are NOT both written: the chunk file concatenates
them into the single line `"aa\n"`, so neither appears in the output. -/
theorem delimiter_distinct_fails :
    ¬ ([97] ∈ outputLines 2 [97, 10, 97] ∧ [97, 10] ∈ outputLines 2 [97, 10, 97]) := by
  decide

/-- C10 (amended): duplicate-elimination equality includes the trailing
delimiter: whenever a line `a` and its delimiter-carrying twin `a ++ "\n"`
reach the merge as lines of sorted spill units (e.g. with capacity 1 they
land in distinct units), they are treated as distinct — both are written,
the delimiter-free one at the earlier position. -/
theorem merge_delimiter_distinct (sources : List (List Line)) (a : Line)
    (hs : ∀ c ∈ sources, List.Sorted lineLe c)
    (h1 : a ∈ sources.flatten) (h2 : a ++ [newline] ∈ sources.flatten) :
    a ∈ mergeSources sources ∧ (a ++ [newline]) ∈ mergeSources sources ∧
      ∀ i j : Nat, (mergeSources sources)[i]? = some a →
        (mergeSources sources)[j]? = some (a ++ [newline]) → i < j := by
  obtain ⟨hsort, hmem⟩ := mergeSources_correct sources hs
  refine ⟨(hmem a).mpr h1, (hmem _).mpr h2, ?_⟩
  intro i j hi hj
  exact sorted_lt_getElem?_lt hsort hi hj (lineLt_append (by simp))

/-- Witness for C10 (amended): spill units `{"a\n"}` and `{"a"}` (as left
by `chunk_capacity = 1` on input `"a\na"`). -/
theorem merge_delimiter_distinct_witness :
    ((∀ c ∈ ([[[97, 10]], [[97]]] : List (List Line)), List.Sorted lineLe c) ∧
        [97] ∈ ([[[97, 10]], [[97]]] : List (List Line)).flatten ∧
        [97] ++ [newline] ∈ ([[[97, 10]], [[97]]] : List (List Line)).flatten) ∧
      ([97] ∈ mergeSources [[[97, 10]], [[97]]] ∧
        ([97] ++ [newline]) ∈ mergeSources [[[97, 10]], [[97]]] ∧
        ∀ i j : Nat, (mergeSources [[[97, 10]], [[97]]])[i]? = some [97] →
          (mergeSources [[[97, 10]], [[97]]])[j]? = some ([97] ++ [newline]) → i < j) :=
  ⟨⟨by decide, by decide, by decide⟩,
    merge_delimiter_distinct [[[97, 10]], [[97]]] [97] (by decide) (by decide) (by decide)⟩

end Sufr
